import Mathlib

/-!
Shallow embedding of the terminal Minesweeper game
(`src/src/minesweeper/minesweeper.py`) together with theorems settling the
specification claims.  Python integers are modelled by `Int` (or `Nat` where
the source value is manifestly non-negative), numpy arrays of shape
(height, width) by functions `Fin H × Fin W → Int`, strings by `String`.
Randomness (`np.random.permutation`) is modelled by quantifying over the
permuted list.
-/

namespace Minesweeper

/-- Positions of an `H × W` board, in (row, column) order like the source. -/
abbrev Pos (H W : Nat) := Fin H × Fin W

/-- An `H × W` numpy array of integers (`value`, `visible`, mine maps). -/
abbrev Grid (H W : Nat) := Pos H W → Int

/-- Convenience constructor for concrete grids: row-major list of rows, any
missing entry reads 0 (only used on lists of the exact shape). -/
def gridOfLists (l : List (List Int)) {H W : Nat} : Grid H W :=
  fun p => (((l.get? p.1.val).getD []).get? p.2.val).getD 0

/-- Embedding of `int_to_letters` from the source: the `while value > 0` loop
prepending `chr((value-1) % 26 + 65)` and continuing with `(value-1) // 26`
is written as recursion on the quotient (Python `//`/`%` agree with
Euclidean `/`/`%` here because `value - 1 ≥ 0` inside the loop). -/
def int_to_letters (value : Int) : String :=
  if 0 < value then
    int_to_letters ((value - 1) / 26) ++ String.mk [Char.ofNat (((value - 1) % 26).toNat + 65)]
  else ""
termination_by value.toNat
decreasing_by
  have h1 : (0 : Int) ≤ value - 1 := by omega
  have h2 : (value - 1) / 26 ≤ value - 1 := Int.ediv_le_self _ h1
  have h3 : (0 : Int) ≤ (value - 1) / 26 := Int.ediv_nonneg h1 (by norm_num)
  omega

/-- Value contributed by one character in `letters_to_int`: `ord(char) - 64`
for `A`–`Z`, `ord(char) - 96` for `a`–`z`, and 0 otherwise (the source's two
`if` branches; other characters add nothing). -/
def letterVal (c : Char) : Nat :=
  if 65 ≤ c.toNat ∧ c.toNat < 91 then c.toNat - 64
  else if 97 ≤ c.toNat ∧ c.toNat < 123 then c.toNat - 96
  else 0

/-- The accumulated sum of `letters_to_int`: character at distance `i` from
the right is weighted by `26 ^ i`, i.e. the head of the list is weighted by
`26 ^ (length of the tail)`. -/
def lettersVal : List Char → Nat
  | [] => 0
  | c :: cs => letterVal c * 26 ^ cs.length + lettersVal cs

/-- Embedding of `letters_to_int` from the source: weighted sum of the
character values, minus one at the end (`return value - 1`). -/
def letters_to_int (letters : String) : Int :=
  (lettersVal letters.data : Int) - 1

/-- ASCII lowercasing of a single character (used only to state that decoding
is case-insensitive). -/
def lowerChar (c : Char) : Char :=
  if 65 ≤ c.toNat ∧ c.toNat ≤ 90 then Char.ofNat (c.toNat + 32) else c

/-- ASCII lowercasing of a string. -/
def lowerStr (s : String) : String :=
  String.mk (s.data.map lowerChar)

/-- The literal "A". -/
def strA : String := "A"

/-- The literal "Z". -/
def strZ : String := "Z"

/-- The literal "AA". -/
def strAA : String := "AA"

/-- Maximum board dimension (`MAX_SIZE` in the source). -/
def MAX_SIZE : Int := 100

/-- Cells / mines ratio bound (`MAX_MINE_FACTOR` in the source). -/
def MAX_MINE_FACTOR : Int := 2

/-- Embedding of Python `int(token)` restricted to the tokens produced by
`str.split()` (no interior whitespace): an optional sign followed by at least
one ASCII digit; `none` models a `ValueError`. -/
def digitsVal (cs : List Char) (acc : Nat) : Option Nat :=
  match cs with
  | [] => some acc
  | c :: rest =>
      if 48 ≤ c.toNat ∧ c.toNat ≤ 57 then digitsVal rest (acc * 10 + (c.toNat - 48))
      else none

/-- Python `int(s)` on a whitespace-free token (see `digitsVal`). -/
def pyInt (s : String) : Option Int :=
  match s.data with
  | [] => none
  | '-' :: rest => if rest = [] then none else (digitsVal rest 0).map (fun n => -(n : Int))
  | '+' :: rest => if rest = [] then none else (digitsVal rest 0).map (fun n => (n : Int))
  | cs => (digitsVal cs 0).map (fun n => (n : Int))

/-- Diagnostics printed by `get_mapinfo` before looping. -/
inductive MapInfoDiag
  | notIntegers
  | tooManyMines
  | needOneMine
  | badDimension
deriving DecidableEq

/-- Outcome of one iteration of the `get_mapinfo` loop: a returned triple, a
printed diagnostic followed by another prompt, or an uncaught `IndexError`
(the `try` block only catches `ValueError`). -/
inductive MapInfoOutcome
  | ret (width height mines : Int)
  | again (d : MapInfoDiag)
  | indexError
deriving DecidableEq

/-- Embedding of one iteration of `get_mapinfo` on the token list produced by
`input(...).split()`.  The `len(l) != 3` branch of the source only prints
"Number of inputs do not match." and falls through into the `try` block
without re-prompting, so it does not appear in the control flow here:
`l[0]`, `l[1]`, `l[2]` are evaluated in order inside the `try`, where a
missing element raises `IndexError` (not caught) and a non-integer token
raises `ValueError` (caught, prints "Please input integers."). -/
def get_mapinfo_step (l : List String) : MapInfoOutcome :=
  match l.get? 0 with
  | none => .indexError
  | some t0 =>
    match pyInt t0 with
    | none => .again .notIntegers
    | some width =>
      match l.get? 1 with
      | none => .indexError
      | some t1 =>
        match pyInt t1 with
        | none => .again .notIntegers
        | some height =>
          match l.get? 2 with
          | none => .indexError
          | some t2 =>
            match pyInt t2 with
            | none => .again .notIntegers
            | some mines =>
              if 0 < width ∧ width ≤ MAX_SIZE ∧ 0 < height ∧ height ≤ MAX_SIZE then
                if 1 ≤ mines then
                  if width * height > mines * MAX_MINE_FACTOR ∧
                      mines ≤ width * height - 3 * min 3 (min width height) then
                    .ret width height mines
                  else .again .tooManyMines
                else .again .needOneMine
              else .again .badDimension

/-- The flat indices excluded from mine placement by `init_map`: the source
computes `v = avoid[0]*width + avoid[1]` and lists the nine values
`v ± width ± 1`, `v ± width`, `v ± 1`, `v` (flattened-index arithmetic, so a
column-0 or column-(width-1) center wraps into the neighbouring row). -/
def avoidsList (width : Nat) (avoid : Nat × Nat) : List Int :=
  let v : Int := (avoid.1 : Int) * width + avoid.2
  [v - width - 1, v - width, v - width + 1,
   v - 1, v, v + 1,
   v + width - 1, v + width, v + width + 1]

/-- The candidate flat indices `np.setdiff1d(np.arange(width*height), avoids)`
(sorted members of `range(width*height)` not in the avoid list). -/
def eligibleCells (width height : Nat) (avoid : Nat × Nat) : List Nat :=
  (List.range (width * height)).filter (fun i => !(avoidsList width avoid).contains (i : Int))

/-- Embedding of `init_map`.  `np.random.permutation` is modelled by the
parameter `perm`, an arbitrary permutation of `eligibleCells width height
avoid`; the source keeps the first `mines` entries (`[:mines]`, which
silently truncates when fewer are available) and sets those flat indices
to 1. -/
def init_map (width height mines : Nat) (avoid : Nat × Nat) (perm : List Nat) :
    Grid height width :=
  fun p => if p.1.val * width + p.2.val ∈ perm.take mines then 1 else 0

/-- Number of mine cells of a mine grid. -/
def countMines {H W : Nat} (g : Grid H W) : Nat :=
  (Finset.univ.filter (fun p : Pos H W => g p = 1)).card

/-- Embedding of `check_end`.  The second branch is
`not np.any(np.logical_xor(value != -1, visible == 1))`: the game is counted
as won exactly when, for every cell, "value ≠ -1" and "visible = 1" agree. -/
def check_end {H W : Nat} (value visible : Grid H W) (pos : Pos H W) : Int :=
  if value pos = -1 ∧ visible pos = 1 then 0
  else if ∀ q : Pos H W, ¬ Xor' (value q ≠ -1) (visible q = 1) then 1
  else -1

/-- The 3×3 all-ones convolution / labeling kernel (`RANGE` in the source),
as the set of (row, column) offsets it covers. -/
def RANGE : Finset (Int × Int) := Finset.Icc (-1) 1 ×ˢ Finset.Icc (-1) 1

/-- A grid read at arbitrary integer coordinates, zero outside the board
(`mode='constant'` zero padding of `scipy.ndimage.convolve`). -/
def cellVal {H W : Nat} (g : Grid H W) (x y : Int) : Int :=
  if h : 0 ≤ x ∧ x < (H : Int) ∧ 0 ≤ y ∧ y < (W : Int) then
    g (⟨x.toNat, by omega⟩, ⟨y.toNat, by omega⟩)
  else 0

/-- `scipy.ndimage.convolve(g, RANGE, mode='constant')` at one cell: the sum
of the 3×3 window centred there, with zero padding. -/
def convSum {H W : Nat} (g : Grid H W) (p : Pos H W) : Int :=
  ∑ d ∈ RANGE, cellVal g ((p.1 : Int) + d.1) ((p.2 : Int) + d.2)

/-- Embedding of `get_value`: convolve the mine map with the 3×3 ones kernel,
then overwrite mine cells (`map == 1`) with the sentinel -1. -/
def get_value {H W : Nat} (map : Grid H W) : Grid H W :=
  fun p => if map p = 1 then -1 else convSum map p

/-- 8-neighbourhood closeness of two cells (each coordinate differs by at
most 1; a cell is close to itself).  This is the adjacency realised by the
3×3 `structure=RANGE` argument of `scipy.ndimage.label` and by the 3×3
dilation. -/
def adjPos {H W : Nat} (a b : Pos H W) : Prop :=
  ((a.1 : Int) - (b.1 : Int)).natAbs ≤ 1 ∧ ((a.2 : Int) - (b.2 : Int)).natAbs ≤ 1

instance adjPos.decidable {H W : Nat} (a b : Pos H W) : Decidable (adjPos a b) := by
  unfold adjPos
  exact inferInstance

/-- One breadth-first expansion step of a connected component over the
zero-valued cells: keep the current set and add every zero-valued cell close
to it. -/
def expand {H W : Nat} (value : Grid H W) (S : Finset (Pos H W)) : Finset (Pos H W) :=
  S ∪ Finset.univ.filter (fun q => value q = 0 ∧ ∃ p ∈ S, adjPos p q)

/-- Iterated expansion starting from the selected cell. -/
def compIter {H W : Nat} (value : Grid H W) (pos : Pos H W) : Nat → Finset (Pos H W)
  | 0 => {pos}
  | n + 1 => expand value (compIter value pos n)

/-- The set of cells carrying the same `scipy.ndimage.label` label as the
selected cell when the foreground is the zero-valued cells and the structure
is the 3×3 ones kernel: by the library's documented semantics this is the
8-connected component of the selected (zero-valued) cell, computed here as
the breadth-first fixed point, reached after at most `H * W` expansions. -/
def component {H W : Nat} (value : Grid H W) (pos : Pos H W) : Finset (Pos H W) :=
  compIter value pos (H * W)

/-- The 0/1 grid `vis_temp` of the source before dilation: 1 exactly on the
component of the selected cell. -/
def compIndicator {H W : Nat} (value : Grid H W) (pos : Pos H W) : Grid H W :=
  fun q => if q ∈ component value pos then 1 else 0

/-- Embedding of `update_visible`.  With `flag` set, toggle the selected cell
between hidden (0) and flagged (-1), leaving a revealed (1) cell alone.
Otherwise: a flagged selected cell is ignored; a zero-valued selected cell
triggers the flood reveal, writing 1 wherever the 3×3 dilation
(`convolve(vis_temp, RANGE)`) of its component is at least 1 (the source's
`visible[vis_temp >= 1] = 1`, which writes over flags as well); any other
cell is revealed individually. -/
def update_visible {H W : Nat} (value visible : Grid H W) (pos : Pos H W) (flag : Bool) :
    Grid H W :=
  if flag then
    if visible pos = 0 then fun q => if q = pos then -1 else visible q
    else if visible pos = -1 then fun q => if q = pos then 0 else visible q
    else visible
  else
    if visible pos = -1 then visible
    else if value pos = 0 then
      fun q => if 1 ≤ convSum (compIndicator value pos) q then 1 else visible q
    else fun q => if q = pos then 1 else visible q

/-- Specification-side step relation of the flood fill: move between
zero-valued cells that are 8-neighbourhood close. -/
def zeroStep {H W : Nat} (value : Grid H W) (a b : Pos H W) : Prop :=
  value a = 0 ∧ value b = 0 ∧ adjPos a b

/-- Specification-side reachability: the maximal 8-connected region of
zero-valued cells containing the target is `{q | zeroReach value pos q}`. -/
def zeroReach {H W : Nat} (value : Grid H W) (pos q : Pos H W) : Prop :=
  Relation.ReflTransGen (zeroStep value) pos q

/-- Specification-side flood closure: the maximal 8-connected zero-valued
region of the target together with every cell in its 8-neighbourhood (the
one-cell border). -/
def specClosure {H W : Nat} (value : Grid H W) (pos q : Pos H W) : Prop :=
  ∃ p, zeroReach value pos p ∧ adjPos p q

/-- Specification-side neighbour count: the number of mines among the at most
8 in-board neighbours of a cell. -/
def neighborMines {H W : Nat} (map : Grid H W) (p : Pos H W) : Nat :=
  (Finset.univ.filter (fun q : Pos H W => q ≠ p ∧ adjPos q p ∧ map q = 1)).card

/-- A 1×3 value grid with a zero cell, a count-1 cell and a mine (derived
from the mine map [[0, 0, 1]]). -/
def val1x3 : Grid 1 3 := gridOfLists [[0, 1, -1]]

/-- A 1×3 visibility grid whose middle cell is flagged. -/
def visFlag1x3 : Grid 1 3 := gridOfLists [[0, -1, 0]]

/-- A 1×3 all-hidden visibility grid. -/
def visZero1x3 : Grid 1 3 := gridOfLists [[0, 0, 0]]

/-- A 1×1 all-zero value grid. -/
def val1x1 : Grid 1 1 := gridOfLists [[0]]

/-- A 1×1 all-hidden visibility grid. -/
def vis1x1 : Grid 1 1 := gridOfLists [[0]]

/-- A 2×2 mine map with a single mine in the corner. -/
def map2x2 : Grid 2 2 := gridOfLists [[1, 0], [0, 0]]

/-- A 1×2 value grid: a mine at column 0, a non-mine (count 1) at column 1. -/
def valueMineLeft : Grid 1 2 := gridOfLists [[-1, 1]]

/-- A 1×2 visibility grid with both cells revealed. -/
def visibleAll1x2 : Grid 1 2 := gridOfLists [[1, 1]]

/-- The token "2". -/
def str2 : String := "2"

/-- The token "4". -/
def str4 : String := "4"

/-- The token "5". -/
def str5 : String := "5"

/-- The token "10". -/
def str10 : String := "10"

/-- The token "99". -/
def str99 : String := "99"

/-! Theorems. -/

section Component

variable {H W : Nat} (value : Grid H W) (pos : Pos H W)

theorem subset_expand (S : Finset (Pos H W)) : S ⊆ expand value S :=
  Finset.subset_union_left

theorem compIter_mono {m n : Nat} (hmn : m ≤ n) :
    compIter value pos m ⊆ compIter value pos n := by
  induction n with
  | zero =>
    have : m = 0 := Nat.le_zero.mp hmn
    subst this
    exact subset_of_eq rfl
  | succ n ih =>
    by_cases h : m ≤ n
    · exact (ih h).trans (subset_expand value (compIter value pos n))
    · have hm : m = n + 1 := by omega
      subst hm
      exact subset_of_eq rfl

theorem compIter_stable {k : Nat}
    (hk : compIter value pos (k + 1) = compIter value pos k) (m : Nat) :
    compIter value pos (k + m) = compIter value pos k := by
  induction m with
  | zero => rfl
  | succ m ih =>
    have : k + (m + 1) = (k + m) + 1 := rfl
    rw [this]
    show expand value (compIter value pos (k + m)) = _
    rw [ih]
    exact hk

theorem expand_component :
    expand value (component value pos) = component value pos := by
  by_contra hne
  have hstrict : ∀ j, j ≤ H * W → compIter value pos (j + 1) ≠ compIter value pos j := by
    intro j hj hstab
    obtain ⟨m, hm⟩ := Nat.exists_eq_add_of_le hj
    apply hne
    show compIter value pos (H * W + 1) = compIter value pos (H * W)
    have h1 : compIter value pos (H * W) = compIter value pos j := by
      rw [hm]
      exact compIter_stable value pos hstab m
    have h2 : compIter value pos (H * W + 1) = compIter value pos j := by
      have he : H * W + 1 = j + (m + 1) := by omega
      rw [he]
      exact compIter_stable value pos hstab (m + 1)
    rw [h1, h2]
  have hcard : ∀ k, k ≤ H * W → k + 1 ≤ (compIter value pos k).card := by
    intro k
    induction k with
    | zero => intro _; simp [compIter]
    | succ k ih =>
      intro hk
      have h1 : k + 1 ≤ (compIter value pos k).card := ih (by omega)
      have h2 : compIter value pos k ⊂ compIter value pos (k + 1) :=
        Finset.ssubset_iff_subset_ne.mpr
          ⟨subset_expand value _, fun h => hstrict k (by omega) h.symm⟩
      have := Finset.card_lt_card h2
      omega
  have h1 := hcard (H * W) le_rfl
  have h2 : (compIter value pos (H * W)).card ≤ H * W := by
    have := Finset.card_le_univ (compIter value pos (H * W))
    simpa [Finset.card_univ] using this
  omega

theorem comp_all_zero (h0 : value pos = 0) :
    ∀ n, ∀ q ∈ compIter value pos n, value q = 0 := by
  intro n
  induction n with
  | zero =>
    intro q hq
    rw [Finset.mem_singleton.mp hq]
    exact h0
  | succ n ih =>
    intro q hq
    rcases Finset.mem_union.mp hq with h | h
    · exact ih q h
    · exact (Finset.mem_filter.mp h).2.1

theorem comp_sound (h0 : value pos = 0) :
    ∀ n, ∀ q ∈ compIter value pos n, zeroReach value pos q := by
  intro n
  induction n with
  | zero =>
    intro q hq
    rw [Finset.mem_singleton.mp hq]
    exact Relation.ReflTransGen.refl
  | succ n ih =>
    intro q hq
    rcases Finset.mem_union.mp hq with h | h
    · exact ih q h
    · obtain ⟨-, hq0, p, hpS, hadj⟩ := Finset.mem_filter.mp h
      exact Relation.ReflTransGen.tail (ih p hpS)
        ⟨comp_all_zero value pos h0 n p hpS, hq0, hadj⟩

theorem comp_complete {q : Pos H W} (hr : zeroReach value pos q) :
    q ∈ component value pos := by
  induction hr with
  | refl =>
    exact compIter_mono value pos (Nat.zero_le (H * W)) (Finset.mem_singleton_self pos)
  | tail hp hstep ih =>
    rw [← expand_component value pos]
    exact Finset.mem_union_right _ (Finset.mem_filter.mpr
      ⟨Finset.mem_univ _, hstep.2.1, _, ih, hstep.2.2⟩)

theorem mem_component_iff (h0 : value pos = 0) (q : Pos H W) :
    q ∈ component value pos ↔ zeroReach value pos q :=
  ⟨comp_sound value pos h0 (H * W) q, comp_complete value pos⟩

end Component

theorem lettersVal_append (xs : List Char) (c : Char) :
    lettersVal (xs ++ [c]) = lettersVal xs * 26 + letterVal c := by
  induction xs with
  | nil => simp [lettersVal]
  | cons x xs ih =>
    have hlen : (xs ++ [c]).length = xs.length + 1 := by simp
    simp only [List.cons_append, lettersVal, List.append_eq, ih, hlen, pow_succ]
    ring

theorem letterVal_ofNat_upper (k : Nat) (hk : k < 26) :
    letterVal (Char.ofNat (k + 65)) = k + 1 := by
  interval_cases k <;> decide

theorem lettersVal_int_to_letters (m : Nat) :
    lettersVal (int_to_letters (m : Int)).data = m := by
  induction m using Nat.strong_induction_on with
  | _ m ih =>
    by_cases hm : m = 0
    · subst hm
      rw [int_to_letters, if_neg (by norm_num)]
      rfl
    · rw [int_to_letters, if_pos (by exact_mod_cast Nat.pos_of_ne_zero hm)]
      have hdiv : ((m : Int) - 1) / 26 = (((m - 1) / 26 : Nat) : Int) := by omega
      have hmod : (((m : Int) - 1) % 26).toNat = (m - 1) % 26 := by omega
      rw [hdiv, hmod, String.data_append, lettersVal_append,
        ih ((m - 1) / 26) (by omega),
        letterVal_ofNat_upper ((m - 1) % 26) (by omega)]
      omega

/-- Claim C9: the label-to-column decoder inverts the bijective base-26
encoder shifted to the 0-based contract: `letters_to_int (int_to_letters n)
= n - 1` for every `n ≥ 1`; moreover `letters_to_int "A" = 0`,
`letters_to_int "Z" = 25`, `letters_to_int "AA" = 26`, and decoding is
case-insensitive (ASCII-lowercasing the label does not change the result). -/
theorem letters_to_int_int_to_letters :
    (∀ n : Int, 1 ≤ n → letters_to_int (int_to_letters n) = n - 1) ∧
    letters_to_int strA = 0 ∧ letters_to_int strZ = 25 ∧ letters_to_int strAA = 26 ∧
    (∀ s : String, letters_to_int (lowerStr s) = letters_to_int s) := by
  have hlow : ∀ c : Char, letterVal (lowerChar c) = letterVal c := by
    intro c
    unfold lowerChar
    split_ifs with hc
    · have hval : letterVal c = c.toNat - 64 := by
        unfold letterVal
        rw [if_pos ⟨hc.1, by omega⟩]
      rw [hval]
      have hgen : ∀ t : Nat, 65 ≤ t → t ≤ 90 → letterVal (Char.ofNat (t + 32)) = t - 64 := by
        intro t h1 h2
        interval_cases t <;> decide
      exact hgen c.toNat hc.1 hc.2
    · rfl
  refine ⟨?_, by decide, by decide, by decide, ?_⟩
  · intro n hn
    have h1 : n = ((n.toNat : Nat) : Int) := by omega
    unfold letters_to_int
    rw [h1, lettersVal_int_to_letters]
  · intro s
    unfold letters_to_int lowerStr
    have : ∀ cs : List Char, lettersVal (cs.map lowerChar) = lettersVal cs := by
      intro cs
      induction cs with
      | nil => rfl
      | cons c cs ih => simp [lettersVal, ih, hlow c]
    rw [this s.data]

/-- Witness for C9 at the concrete inputs 27 and "AA". -/
theorem letters_to_int_int_to_letters_witness :
    letters_to_int (int_to_letters 27) = 27 - 1 ∧
    letters_to_int (lowerStr strAA) = letters_to_int strAA :=
  ⟨letters_to_int_int_to_letters.1 27 (by norm_num),
   letters_to_int_int_to_letters.2.2.2.2 strAA⟩

/-- Claim C10: for every `n ≤ 0`, `int_to_letters n` returns the empty string
(the encoding loop body is never entered), rather than raising or looping. -/
theorem int_to_letters_nonpos (n : Int) (hn : n ≤ 0) : int_to_letters n = "" := by
  rw [int_to_letters, if_neg (by omega)]

/-- Witness for C10 at the concrete input -7. -/
theorem int_to_letters_nonpos_witness : int_to_letters (-7) = "" :=
  int_to_letters_nonpos (-7) (by norm_num)

section Convolution

variable {H W : Nat}

theorem cellVal_cases (g : Grid H W) (hb : ∀ q, g q = 0 ∨ g q = 1) (x y : Int) :
    cellVal g x y = 0 ∨ cellVal g x y = 1 := by
  unfold cellVal
  split_ifs
  · exact hb _
  · exact Or.inl rfl

theorem cellVal_coe (g : Grid H W) (q : Pos H W) :
    cellVal g (q.1 : Int) (q.2 : Int) = g q := by
  unfold cellVal
  have hbound : 0 ≤ ((q.1 : Nat) : Int) ∧ ((q.1 : Nat) : Int) < (H : Int) ∧
      0 ≤ ((q.2 : Nat) : Int) ∧ ((q.2 : Nat) : Int) < (W : Int) := by
    have := q.1.isLt
    have := q.2.isLt
    omega
  rw [dif_pos hbound]
  apply congrArg
  apply Prod.ext
  · apply Fin.ext
    show (((q.1 : Nat) : Int)).toNat = (q.1 : Nat)
    omega
  · apply Fin.ext
    show (((q.2 : Nat) : Int)).toNat = (q.2 : Nat)
    omega

theorem convSum_count (g : Grid H W) (hb : ∀ q, g q = 0 ∨ g q = 1) (p : Pos H W) :
    convSum g p =
      ((Finset.univ.filter (fun q : Pos H W => adjPos q p ∧ g q = 1)).card : Int) := by
  unfold convSum
  have hterm : ∀ d ∈ RANGE,
      cellVal g ((p.1 : Int) + d.1) ((p.2 : Int) + d.2)
        = if cellVal g ((p.1 : Int) + d.1) ((p.2 : Int) + d.2) = 1 then (1 : Int) else 0 := by
    intro d _
    rcases cellVal_cases g hb ((p.1 : Int) + d.1) ((p.2 : Int) + d.2) with h | h <;>
      rw [h] <;> norm_num
  rw [Finset.sum_congr rfl hterm, Finset.sum_boole]
  have hcard : (Finset.univ.filter (fun q : Pos H W => adjPos q p ∧ g q = 1)).card
      = (RANGE.filter (fun d =>
          cellVal g ((p.1 : Int) + d.1) ((p.2 : Int) + d.2) = 1)).card := by
    apply Finset.card_bij (fun q _ => (((q.1 : Nat) : Int) - (p.1 : Nat), ((q.2 : Nat) : Int) - (p.2 : Nat)))
    · intro q hq
      obtain ⟨-, hadj, hg⟩ := Finset.mem_filter.mp hq
      obtain ⟨ha1, ha2⟩ := hadj
      apply Finset.mem_filter.mpr
      refine ⟨Finset.mem_product.mpr ⟨Finset.mem_Icc.mpr ⟨by omega, by omega⟩,
        Finset.mem_Icc.mpr ⟨by omega, by omega⟩⟩, ?_⟩
      have hx : ((p.1 : Nat) : Int) + (((q.1 : Nat) : Int) - (p.1 : Nat)) = ((q.1 : Nat) : Int) := by ring
      have hy : ((p.2 : Nat) : Int) + (((q.2 : Nat) : Int) - (p.2 : Nat)) = ((q.2 : Nat) : Int) := by ring
      show cellVal g _ _ = 1
      rw [hx, hy, cellVal_coe]
      exact hg
    · intro q1 hq1 q2 hq2 heq
      rw [Prod.mk.injEq] at heq
      obtain ⟨he1, he2⟩ := heq
      apply Prod.ext <;> apply Fin.ext <;> omega
    · intro d hd
      obtain ⟨hdR, hdc⟩ := Finset.mem_filter.mp hd
      have hdIcc := Finset.mem_product.mp hdR
      have hd1 := Finset.mem_Icc.mp hdIcc.1
      have hd2 := Finset.mem_Icc.mp hdIcc.2
      unfold cellVal at hdc
      by_cases hin : 0 ≤ (p.1 : Int) + d.1 ∧ (p.1 : Int) + d.1 < (H : Int) ∧
          0 ≤ (p.2 : Int) + d.2 ∧ (p.2 : Int) + d.2 < (W : Int)
      · rw [dif_pos hin] at hdc
        refine ⟨(⟨((p.1 : Int) + d.1).toNat, by omega⟩, ⟨((p.2 : Int) + d.2).toNat, by omega⟩),
          Finset.mem_filter.mpr ⟨Finset.mem_univ _, ?_, hdc⟩, ?_⟩
        · constructor <;> (dsimp only; omega)
        · rw [Prod.mk.injEq]
          constructor <;> (dsimp only; omega)
      · rw [dif_neg hin] at hdc
        exact absurd hdc (by norm_num)
  rw [hcard]

theorem neighborMines_le_eight (map : Grid H W) (p : Pos H W) :
    neighborMines map p ≤ 8 := by
  unfold neighborMines
  have hinj : (Finset.univ.filter
      (fun q : Pos H W => q ≠ p ∧ adjPos q p ∧ map q = 1)).card
      ≤ (RANGE.erase ((0 : Int), (0 : Int))).card := by
    apply Finset.card_le_card_of_injOn
      (fun q => (((q.1 : Nat) : Int) - (p.1 : Nat), ((q.2 : Nat) : Int) - (p.2 : Nat)))
    · intro q hq
      obtain ⟨-, hne, ⟨ha1, ha2⟩, -⟩ := Finset.mem_filter.mp hq
      apply Finset.mem_erase.mpr
      constructor
      · intro hzero
        rw [Prod.mk.injEq] at hzero
        apply hne
        apply Prod.ext <;> apply Fin.ext <;> omega
      · exact Finset.mem_product.mpr ⟨Finset.mem_Icc.mpr ⟨by omega, by omega⟩,
          Finset.mem_Icc.mpr ⟨by omega, by omega⟩⟩
    · intro q1 hq1 q2 hq2 heq
      rw [Prod.mk.injEq] at heq
      obtain ⟨he1, he2⟩ := heq
      apply Prod.ext <;> apply Fin.ext <;> omega
  have hcard : (RANGE.erase ((0 : Int), (0 : Int))).card = 8 := by decide
  omega

/-- Claim C5: on a 0/1 mine grid, `get_value` marks a cell with the sentinel
-1 exactly when it is a mine, and gives every non-mine cell the number of
mines among its at most 8 in-board neighbours, a value in [0, 8]. -/
theorem get_value_correct (map : Grid H W) (hb : ∀ q, map q = 0 ∨ map q = 1)
    (p : Pos H W) :
    (get_value map p = -1 ↔ map p = 1) ∧
    (map p = 0 → get_value map p = (neighborMines map p : Int) ∧
      0 ≤ get_value map p ∧ get_value map p ≤ 8) := by
  have hmain : map p = 0 → get_value map p = (neighborMines map p : Int) := by
    intro h0
    show (if map p = 1 then -1 else convSum map p) = _
    rw [if_neg (by rw [h0]; norm_num), convSum_count map hb p]
    unfold neighborMines
    congr 1
    apply congrArg
    apply Finset.filter_congr
    intro q _
    constructor
    · intro ⟨ha, hg⟩
      refine ⟨?_, ha, hg⟩
      rintro rfl
      rw [h0] at hg
      norm_num at hg
    · intro ⟨_, ha, hg⟩
      exact ⟨ha, hg⟩
  constructor
  · constructor
    · intro hval
      rcases hb p with h0 | h1
      · exfalso
        rw [hmain h0] at hval
        omega
      · exact h1
    · intro h1
      show (if map p = 1 then -1 else convSum map p) = -1
      rw [if_pos h1]
  · intro h0
    refine ⟨hmain h0, ?_, ?_⟩
    · rw [hmain h0]
      positivity
    · rw [hmain h0]
      exact_mod_cast neighborMines_le_eight map p

theorem compIndicator_cases (value : Grid H W) (pos : Pos H W) (r : Pos H W) :
    compIndicator value pos r = 0 ∨ compIndicator value pos r = 1 := by
  unfold compIndicator
  split_ifs <;> simp

/-- The dilated component test `vis_temp >= 1` of the source holds at a cell
exactly when the cell is in the flood closure (component plus one-cell
border). -/
theorem convSum_indicator_iff (value : Grid H W) (pos : Pos H W)
    (h0 : value pos = 0) (q : Pos H W) :
    1 ≤ convSum (compIndicator value pos) q ↔ specClosure value pos q := by
  rw [convSum_count (compIndicator value pos) (compIndicator_cases value pos) q]
  constructor
  · intro hge
    have hpos : 0 < (Finset.univ.filter
        (fun r : Pos H W => adjPos r q ∧ compIndicator value pos r = 1)).card := by
      exact_mod_cast hge
    obtain ⟨r, hr⟩ := Finset.card_pos.mp hpos
    obtain ⟨-, hadj, hind⟩ := Finset.mem_filter.mp hr
    have hmem : r ∈ component value pos := by
      by_contra hc
      unfold compIndicator at hind
      rw [if_neg hc] at hind
      norm_num at hind
    exact ⟨r, (mem_component_iff value pos h0 r).mp hmem, hadj⟩
  · rintro ⟨r, hreach, hadj⟩
    have hmem := comp_complete value pos hreach
    have hr : r ∈ Finset.univ.filter
        (fun r : Pos H W => adjPos r q ∧ compIndicator value pos r = 1) :=
      Finset.mem_filter.mpr ⟨Finset.mem_univ _, hadj, by unfold compIndicator; rw [if_pos hmem]⟩
    have := Finset.card_pos.mpr ⟨r, hr⟩
    exact_mod_cast this

end Convolution

/-- Claim C1 (code bug): on the 1×2 board whose only mine (column 0) is
revealed and whose only non-mine cell (column 1, the last-moved cell) is also
revealed, every non-mine cell is revealed, yet `check_end` returns -1
(Ongoing) instead of 1 (Won): the `np.logical_xor` test additionally demands
that no mine cell be revealed, contradicting the function's own docstring
("1 if all non-mine cells are visible, so player won"). -/
theorem check_end_revealed_mine_not_won :
    (∀ q : Pos 1 2, valueMineLeft q ≠ -1 → visibleAll1x2 q = 1) ∧
    check_end valueMineLeft visibleAll1x2 ((0 : Fin 1), (1 : Fin 2)) = -1 := by
  decide

/-- Claim C4 (code bug): `get_mapinfo` propagates an uncaught `IndexError` to
its caller when the input line has fewer than three tokens (`l[0]` or `l[1]`
is evaluated inside a `try` that only catches `ValueError`), and when the
line has more than three valid tokens it returns a triple after printing the
count diagnostic instead of re-prompting. -/
theorem get_mapinfo_step_bug :
    get_mapinfo_step [] = .indexError ∧
    get_mapinfo_step [str5] = .indexError ∧
    get_mapinfo_step [str10, str10, str10, str99] = .ret 10 10 10 := by
  decide

/-- Claim C3 (code bug): the triple (width 2, height 4, mines 2) passes the
size validation and the center (2,0) is in bounds, but the flattened-index
avoid list wraps across rows and excludes seven of the eight cells, leaving a
single eligible cell; `[:mines]` then truncates silently, so every run of
`init_map` places exactly 1 mine instead of the requested 2. -/
theorem init_map_mine_deficit :
    get_mapinfo_step [str2, str4, str2] = .ret 2 4 2 ∧
    eligibleCells 2 4 (2, 0) = [0] ∧
    ∀ perm : List Nat, perm.Perm (eligibleCells 2 4 (2, 0)) →
      countMines (init_map 2 4 2 (2, 0) perm) = 1 := by
  refine ⟨by decide, by decide, ?_⟩
  intro perm hp
  have hperm : perm = [0] := by
    have : eligibleCells 2 4 (2, 0) = [0] := by decide
    rw [this] at hp
    exact List.perm_singleton.mp hp
  subst hperm
  decide

/-- Witness for C3 at the only permutation of the eligible set. -/
theorem init_map_mine_deficit_witness :
    countMines (init_map 2 4 2 (2, 0) [0]) = 1 :=
  init_map_mine_deficit.2.2 [0] (by decide)

section Reveal

variable {H W : Nat}

theorem update_visible_flagged_noop (value visible : Grid H W) (pos : Pos H W)
    (hf : visible pos = -1) : update_visible value visible pos false = visible := by
  unfold update_visible
  rw [if_neg (by simp), if_pos hf]

theorem update_visible_flood_eq (value visible : Grid H W) (pos : Pos H W)
    (h0 : value pos = 0) (hnf : visible pos ≠ -1) :
    update_visible value visible pos false
      = fun q => if 1 ≤ convSum (compIndicator value pos) q then 1 else visible q := by
  unfold update_visible
  rw [if_neg (by simp), if_neg hnf, if_pos h0]

theorem adjPos_self (p : Pos H W) : adjPos p p := by
  unfold adjPos
  constructor <;> omega

/-- Claim C6: revealing an unflagged zero-valued cell sets to Revealed every
cell of the flood closure (the maximal 8-connected zero-valued region of the
target plus its one-cell border) and leaves every cell outside that closure
unchanged. -/
theorem flood_reveal_exact (value visible : Grid H W) (pos q : Pos H W)
    (h0 : value pos = 0) (hnf : visible pos ≠ -1) :
    (specClosure value pos q → update_visible value visible pos false q = 1) ∧
    (¬ specClosure value pos q → update_visible value visible pos false q = visible q) := by
  rw [update_visible_flood_eq value visible pos h0 hnf]
  constructor
  · intro hcl
    dsimp only
    rw [if_pos ((convSum_indicator_iff value pos h0 q).mpr hcl)]
  · intro hcl
    dsimp only
    rw [if_neg (fun hge => hcl ((convSum_indicator_iff value pos h0 q).mp hge))]

/-- Witness for C6 on the 1×3 board [[0, 1, -1]]: revealing the zero cell
reveals its border neighbour and the closure facts evaluate as stated. -/
theorem flood_reveal_exact_witness :
    (specClosure val1x3 ((0 : Fin 1), (0 : Fin 3)) ((0 : Fin 1), (1 : Fin 3)) →
      update_visible val1x3 visZero1x3 ((0 : Fin 1), (0 : Fin 3)) false
        ((0 : Fin 1), (1 : Fin 3)) = 1) ∧
    (¬ specClosure val1x3 ((0 : Fin 1), (0 : Fin 3)) ((0 : Fin 1), (1 : Fin 3)) →
      update_visible val1x3 visZero1x3 ((0 : Fin 1), (0 : Fin 3)) false
        ((0 : Fin 1), (1 : Fin 3)) = visZero1x3 ((0 : Fin 1), (1 : Fin 3))) :=
  flood_reveal_exact val1x3 visZero1x3 ((0 : Fin 1), (0 : Fin 3)) ((0 : Fin 1), (1 : Fin 3))
    (by decide) (by decide)

/-- Claim C2 counterexample: on the value grid [[0, 1, -1]] with the middle
cell flagged, revealing the zero cell at column 0 overwrites the flagged
cell inside the one-cell border with Revealed: `update_visible` does change
a Flagged cell. -/
theorem flood_unflags_flagged_cell :
    visFlag1x3 ((0 : Fin 1), (1 : Fin 3)) = -1 ∧
    update_visible val1x3 visFlag1x3 ((0 : Fin 1), (0 : Fin 3)) false
      ((0 : Fin 1), (1 : Fin 3)) = 1 := by
  decide

/-- Claim C2 (amended): revealing an unflagged zero-valued cell leaves every
Flagged cell outside the flood closure Flagged (and is a no-op when the
selected cell itself is Flagged), but a Flagged cell inside the closure is
overwritten to Revealed. -/
theorem flood_flagged_cells (value visible : Grid H W) (pos q : Pos H W)
    (h0 : value pos = 0) (hq : visible q = -1) :
    (visible pos = -1 → update_visible value visible pos false q = visible q) ∧
    (visible pos ≠ -1 → specClosure value pos q →
      update_visible value visible pos false q = 1) ∧
    (visible pos ≠ -1 → ¬ specClosure value pos q →
      update_visible value visible pos false q = -1) := by
  refine ⟨?_, ?_, ?_⟩
  · intro hf
    rw [update_visible_flagged_noop value visible pos hf]
  · intro hnf hcl
    rw [update_visible_flood_eq value visible pos h0 hnf]
    dsimp only
    rw [if_pos ((convSum_indicator_iff value pos h0 q).mpr hcl)]
  · intro hnf hcl
    rw [update_visible_flood_eq value visible pos h0 hnf]
    dsimp only
    rw [if_neg (fun hge => hcl ((convSum_indicator_iff value pos h0 q).mp hge)), hq]

/-- Witness for the amended C2 on the 1×3 board with flagged middle cell. -/
theorem flood_flagged_cells_witness :
    (visFlag1x3 ((0 : Fin 1), (0 : Fin 3)) = -1 →
      update_visible val1x3 visFlag1x3 ((0 : Fin 1), (0 : Fin 3)) false
        ((0 : Fin 1), (1 : Fin 3)) = visFlag1x3 ((0 : Fin 1), (1 : Fin 3))) ∧
    (visFlag1x3 ((0 : Fin 1), (0 : Fin 3)) ≠ -1 →
      specClosure val1x3 ((0 : Fin 1), (0 : Fin 3)) ((0 : Fin 1), (1 : Fin 3)) →
      update_visible val1x3 visFlag1x3 ((0 : Fin 1), (0 : Fin 3)) false
        ((0 : Fin 1), (1 : Fin 3)) = 1) ∧
    (visFlag1x3 ((0 : Fin 1), (0 : Fin 3)) ≠ -1 →
      ¬ specClosure val1x3 ((0 : Fin 1), (0 : Fin 3)) ((0 : Fin 1), (1 : Fin 3)) →
      update_visible val1x3 visFlag1x3 ((0 : Fin 1), (0 : Fin 3)) false
        ((0 : Fin 1), (1 : Fin 3)) = -1) :=
  flood_flagged_cells val1x3 visFlag1x3 ((0 : Fin 1), (0 : Fin 3)) ((0 : Fin 1), (1 : Fin 3))
    (by decide) (by decide)

/-- Claim C7: revealing the same zero-valued cell twice yields the same
visibility grid as revealing it once. -/
theorem update_visible_reveal_idem (value visible : Grid H W) (pos : Pos H W)
    (h0 : value pos = 0) :
    update_visible value (update_visible value visible pos false) pos false
      = update_visible value visible pos false := by
  by_cases hf : visible pos = -1
  · rw [update_visible_flagged_noop value visible pos hf]
    exact update_visible_flagged_noop value visible pos hf
  · have hcond : 1 ≤ convSum (compIndicator value pos) pos :=
      (convSum_indicator_iff value pos h0 pos).mpr
        ⟨pos, Relation.ReflTransGen.refl, adjPos_self pos⟩
    have hv1pos : update_visible value visible pos false pos = 1 := by
      rw [update_visible_flood_eq value visible pos h0 hf]
      dsimp only
      rw [if_pos hcond]
    rw [update_visible_flood_eq value (update_visible value visible pos false) pos h0
      (by rw [hv1pos]; norm_num)]
    funext q
    dsimp only
    by_cases hc : 1 ≤ convSum (compIndicator value pos) q
    · rw [if_pos hc, update_visible_flood_eq value visible pos h0 hf]
      dsimp only
      rw [if_pos hc]
    · rw [if_neg hc]

/-- Witness for C7 on a 1×1 zero board. -/
theorem update_visible_reveal_idem_witness :
    update_visible val1x1 (update_visible val1x1 vis1x1 ((0 : Fin 1), (0 : Fin 1)) false)
        ((0 : Fin 1), (0 : Fin 1)) false
      = update_visible val1x1 vis1x1 ((0 : Fin 1), (0 : Fin 1)) false :=
  update_visible_reveal_idem val1x1 vis1x1 ((0 : Fin 1), (0 : Fin 1)) (by decide)

/-- Claim C8: flagging a Hidden cell twice restores the visibility grid
exactly; each application toggles only that cell (first to Flagged), leaves
every other cell unchanged, and a flag command on a Revealed cell is a
no-op. -/
theorem flag_toggle_roundtrip (value visible : Grid H W) (pos : Pos H W)
    (hpos : visible pos = 0) :
    update_visible value (update_visible value visible pos true) pos true = visible ∧
    update_visible value visible pos true pos = -1 ∧
    (∀ q, q ≠ pos → update_visible value visible pos true q = visible q) ∧
    (∀ vis2 : Grid H W, vis2 pos = 1 → update_visible value vis2 pos true = vis2) := by
  have h1 : update_visible value visible pos true
      = fun q => if q = pos then -1 else visible q := by
    unfold update_visible
    rw [if_pos rfl, if_pos hpos]
  have h1pos : update_visible value visible pos true pos = -1 := by
    rw [h1]
    dsimp only
    rw [if_pos rfl]
  have hflagset : ∀ vis : Grid H W, vis pos = -1 →
      update_visible value vis pos true = fun q => if q = pos then 0 else vis q := by
    intro vis hv
    unfold update_visible
    rw [if_pos rfl, if_neg (by rw [hv]; norm_num), if_pos hv]
  refine ⟨?_, h1pos, ?_, ?_⟩
  · rw [hflagset _ h1pos, h1]
    funext q
    dsimp only
    by_cases hq : q = pos
    · subst hq
      rw [if_pos rfl]
      exact hpos.symm
    · rw [if_neg hq, if_neg hq]
  · intro q hq
    rw [h1]
    dsimp only
    rw [if_neg hq]
  · intro vis2 hv2
    unfold update_visible
    rw [if_pos rfl, if_neg (by rw [hv2]; norm_num), if_neg (by rw [hv2]; norm_num)]

/-- Witness for C8 on a 1×1 board with a hidden cell. -/
theorem flag_toggle_roundtrip_witness :
    update_visible val1x1 (update_visible val1x1 vis1x1 ((0 : Fin 1), (0 : Fin 1)) true)
      ((0 : Fin 1), (0 : Fin 1)) true = vis1x1 :=
  (flag_toggle_roundtrip val1x1 vis1x1 ((0 : Fin 1), (0 : Fin 1)) (by decide)).1

/-- Witness for C5 at the non-mine cell (0,1) of the 2×2 single-mine map. -/
theorem get_value_correct_witness :
    (get_value map2x2 ((0 : Fin 2), (1 : Fin 2)) = -1 ↔ map2x2 ((0 : Fin 2), (1 : Fin 2)) = 1) ∧
    (map2x2 ((0 : Fin 2), (1 : Fin 2)) = 0 →
      get_value map2x2 ((0 : Fin 2), (1 : Fin 2))
          = (neighborMines map2x2 ((0 : Fin 2), (1 : Fin 2)) : Int) ∧
        0 ≤ get_value map2x2 ((0 : Fin 2), (1 : Fin 2)) ∧
        get_value map2x2 ((0 : Fin 2), (1 : Fin 2)) ≤ 8) :=
  get_value_correct map2x2 (by decide) ((0 : Fin 2), (1 : Fin 2))

end Reveal

end Minesweeper
